import Mathlib

set_option maxHeartbeats 1000000

/-!
Verification development for src/use-query-string-state.ts.

Modelling conventions:
- JS strings are Lean strings (sequences of Unicode scalar values).
- JS numbers are modelled as integers: the data model of this hook uses
  integer-valued defaults and query values, and float-specific behaviour
  is outside the model. Consequently the JS numeric-string test
  (trimmed, finite under Number coercion) is modelled as recognising
  optionally-signed decimal integer numerals.
- Platform primitives (encodeURIComponent, URLSearchParams, new URL,
  the urlencoded serializer behind searchParams.toString) are embedded
  at the byte level following the WHATWG descriptions, since their code
  is not part of the repository.
-/

namespace QStr

/-! ### Definitions: the embedded model. -/


def hexDigitChar (n : Nat) : Char :=
  if n < 10 then Char.ofNat (48 + n) else Char.ofNat (55 + n)

def hexVal (c : Char) : Option Nat :=
  if 48 ≤ c.toNat ∧ c.toNat ≤ 57 then some (c.toNat - 48)
  else if 65 ≤ c.toNat ∧ c.toNat ≤ 70 then some (c.toNat - 55)
  else if 97 ≤ c.toNat ∧ c.toNat ≤ 102 then some (c.toNat - 87)
  else none

/-- UTF-8 bytes of one Unicode scalar value. -/
def utf8EncodeChar (c : Char) : List Nat :=
  let n := c.toNat
  if n < 0x80 then [n]
  else if n < 0x800 then [0xC0 + n / 64, 0x80 + n % 64]
  else if n < 0x10000 then [0xE0 + n / 4096, 0x80 + (n / 64) % 64, 0x80 + n % 64]
  else [0xF0 + n / 0x40000, 0x80 + (n / 4096) % 64, 0x80 + (n / 64) % 64, 0x80 + n % 64]

def isCont (b : Nat) : Bool := decide (0x80 ≤ b) && decide (b < 0xC0)

def replChar : Char := Char.ofNat 0xFFFD

/-- Permissive UTF-8 decoder; structurally invalid sequences yield U+FFFD,
as in the WHATWG encoding standard. The fuel argument is instantiated with
the length of the byte list, which is always enough because every step
consumes at least one byte. -/
def utf8DecodeGo : Nat → List Nat → List Char
  | 0, _ => []
  | _, [] => []
  | f+1, b :: rest =>
    if b < 0x80 then Char.ofNat b :: utf8DecodeGo f rest
    else if b < 0xC0 then replChar :: utf8DecodeGo f rest
    else if b < 0xE0 then
      match rest with
      | b2 :: r2 =>
        if isCont b2 then
          Char.ofNat ((b - 0xC0) * 64 + (b2 - 0x80)) :: utf8DecodeGo f r2
        else replChar :: utf8DecodeGo f rest
      | _ => replChar :: utf8DecodeGo f rest
    else if b < 0xF0 then
      match rest with
      | b2 :: b3 :: r2 =>
        if isCont b2 && isCont b3 then
          Char.ofNat ((b - 0xE0) * 4096 + (b2 - 0x80) * 64 + (b3 - 0x80)) :: utf8DecodeGo f r2
        else replChar :: utf8DecodeGo f rest
      | _ => replChar :: utf8DecodeGo f rest
    else
      match rest with
      | b2 :: b3 :: b4 :: r2 =>
        if isCont b2 && isCont b3 && isCont b4 then
          Char.ofNat ((b - 0xF0) * 0x40000 + (b2 - 0x80) * 4096 + (b3 - 0x80) * 64 + (b4 - 0x80))
            :: utf8DecodeGo f r2
        else replChar :: utf8DecodeGo f rest
      | _ => replChar :: utf8DecodeGo f rest

def utf8Decode (bs : List Nat) : List Char := utf8DecodeGo bs.length bs

/-- Byte stream of one application/x-www-form-urlencoded token, as the
URLSearchParams parser reads it: plus becomes a space byte, a percent sign
followed by two hex digits becomes that byte, a malformed percent sign is
kept literally, and any other character contributes its UTF-8 bytes.
The fuel is instantiated with the length of the character list, which is
always enough because every step consumes at least one character. -/
def tokenBytesGo : Nat → List Char → List Nat
  | 0, _ => []
  | _, [] => []
  | f+1, c :: rest =>
    if c = '+' then 32 :: tokenBytesGo f rest
    else if c = '%' then
      match rest with
      | h1 :: h2 :: rest2 =>
        match hexVal h1, hexVal h2 with
        | some v1, some v2 => (16 * v1 + v2) :: tokenBytesGo f rest2
        | _, _ => 37 :: tokenBytesGo f rest
      | _ => 37 :: tokenBytesGo f rest
    else utf8EncodeChar c ++ tokenBytesGo f rest

def tokenBytes (cs : List Char) : List Nat := tokenBytesGo cs.length cs

def decodeChars (cs : List Char) : List Char := utf8Decode (tokenBytes cs)

def percentByte (b : Nat) : List Char := ['%', hexDigitChar (b / 16), hexDigitChar (b % 16)]

/-- One character of percent-encoded output; parameterised by the set of
characters the encoder leaves intact and by whether a space becomes a plus
(the urlencoded serializer does this, encodeURIComponent does not). -/
def encodeCharWith (safe : Char → Bool) (plusSpace : Bool) (c : Char) : List Char :=
  if plusSpace && (c == ' ') then ['+']
  else if safe c then [c]
  else (utf8EncodeChar c).flatMap percentByte

/-- Characters encodeURIComponent leaves intact: ASCII alphanumerics and
- _ . ! ~ * ( ) together with the apostrophe (code 39). -/
def uriUnreserved (c : Char) : Bool :=
  let n := c.toNat
  (decide (48 ≤ n) && decide (n ≤ 57)) || (decide (65 ≤ n) && decide (n ≤ 90)) ||
  (decide (97 ≤ n) && decide (n ≤ 122)) ||
  (n == 45) || (n == 95) || (n == 46) || (n == 33) || (n == 126) ||
  (n == 42) || (n == 39) || (n == 40) || (n == 41)

/-- Characters the application/x-www-form-urlencoded serializer leaves
intact: ASCII alphanumerics and * - . _ (a space becomes a plus). -/
def formSafe (c : Char) : Bool :=
  let n := c.toNat
  (decide (48 ≤ n) && decide (n ≤ 57)) || (decide (65 ≤ n) && decide (n ≤ 90)) ||
  (decide (97 ≤ n) && decide (n ≤ 122)) ||
  (n == 42) || (n == 45) || (n == 46) || (n == 95)

def encodeChars (safe : Char → Bool) (plusSpace : Bool) (cs : List Char) : List Char :=
  cs.flatMap (encodeCharWith safe plusSpace)

/-- Model of the encodeURIComponent builtin. -/
def encodeURIComponent (s : String) : String :=
  String.mk (encodeChars uriUnreserved false s.data)

/-- A safe-set predicate usable for round-trip decoding: every safe
character is ASCII and is neither a percent sign nor a plus. -/
def GoodSafe (safe : Char → Bool) : Prop :=
  ∀ c, safe c = true → c.toNat < 0x80 ∧ c.toNat ≠ 37 ∧ c.toNat ≠ 43

/-- Split a character list at every occurrence of the separator (the
result always has one more piece than there are separators). -/
def splitSep (sep : Char) : List Char → List (List Char)
  | [] => [[]]
  | c :: rest =>
    if c = sep then [] :: splitSep sep rest
    else
      match splitSep sep rest with
      | t :: ts => (c :: t) :: ts
      | [] => [[c]]

/-- Joining with a separator, as the JS array join does. -/
def joinSep (sep : Char) : List (List Char) → List Char
  | [] => []
  | s :: ss => s ++ ss.flatMap (fun t => sep :: t)

/-- Split at the first equals sign: the name is everything before it, the
value everything after it (the whole token, with empty value, when there
is none). -/
def splitFirstEq : List Char → List Char × List Char
  | [] => ([], [])
  | c :: rest =>
    if c = '=' then ([], rest)
    else
      ((splitFirstEq rest).1.cons c, (splitFirstEq rest).2)

/-- The URLSearchParams constructor ignores one leading question mark. -/
def stripQM : List Char → List Char
  | [] => []
  | c :: t => if c = '?' then t else c :: t

/-- Model of URLSearchParams parsing, producing the decoded (name, value)
entry list: split on ampersands, skip empty tokens, split each token at
its first equals sign, decode both sides (plus to space, then
percent-decode over UTF-8). -/
def upEntries (s : String) : List (String × String) :=
  (splitSep '&' (stripQM s.data)).filterMap (fun tok =>
    if tok.isEmpty then none
    else
      some (String.mk (decodeChars (splitFirstEq tok).1),
            String.mk (decodeChars (splitFirstEq tok).2)))

/-- Model of the application/x-www-form-urlencoded serializer used by
searchParams.toString: ampersand-joined name=value pairs, each side
form-encoded. -/
def serializeForm (entries : List (String × String)) : String :=
  String.mk (joinSep '&' (entries.map (fun e =>
    encodeChars formSafe true e.1.data ++ '=' :: encodeChars formSafe true e.2.data)))

/-- One entry as the serializer renders it. -/
def formSeg (ent : String × String) : List Char :=
  encodeChars formSafe true ent.1.data ++ '=' :: encodeChars formSafe true ent.2.data

inductive Scalar where
  | str (s : String)
  | num (n : Int)
  | null
deriving DecidableEq, Repr

inductive Value where
  | str (s : String)
  | num (n : Int)
  | null
  | arr (items : List Scalar)
deriving DecidableEq, Repr

/-- A state object or URL mapping: ordered own enumerable properties. -/
abbrev StateObj := List (String × Value)

/-- JS String.prototype.trim over the whitespace of the model. -/
def jsTrim (cs : List Char) : List Char :=
  ((cs.dropWhile Char.isWhitespace).reverse.dropWhile Char.isWhitespace).reverse

def digitsVal (ds : List Char) : Option Nat :=
  if ds.isEmpty then none
  else if ds.all Char.isDigit then
    some (ds.foldl (fun acc c => acc * 10 + (c.toNat - 48)) 0)
  else none

/-- The numeric strings of the model and their values: optionally signed
decimal integer numerals surrounded by whitespace (JS Number coercion
restricted to the integer fragment; see the conventions above). A string
with empty trim is not numeric, matching the trim test in isNumber. -/
def jsNumOfString (s : String) : Option Int :=
  match jsTrim s.data with
  | '-' :: ds => (digitsVal ds).map (fun n => -(n : Int))
  | '+' :: ds => (digitsVal ds).map (fun n => (n : Int))
  | ds => (digitsVal ds).map (fun n => (n : Int))

/-- Model of isNumber from the source: a number passes the finiteness
test (always, for integers); a string passes when its trim is nonempty
and Number coercion is finite; arrays and null fail. -/
def isNumber : Value → Bool
  | .num _ => true
  | .str s => (jsNumOfString s).isSome
  | _ => false

def toNumberableScalar : Scalar → Scalar
  | .str s =>
    match jsNumOfString s with
    | some n => .num n
    | none => .str s
  | v => v

/-- Model of toNumberable from the source: arrays element-wise, numeric
strings to numbers, everything else unchanged. -/
def toNumberable : Value → Value
  | .arr items => .arr (items.map toNumberableScalar)
  | .str s =>
    match jsNumOfString s with
    | some n => .num n
    | none => .str s
  | v => v

/-- JS String conversion for scalars (used by encodeURIComponent). -/
def scalarToString : Scalar → String
  | .str s => s
  | .num n => toString n
  | .null => "null"

def valueToString : Value → String
  | .str s => s
  | .num n => toString n
  | .null => "null"
  | .arr items => String.mk (joinSep ',' (items.map (fun it => (scalarToString it).data)))

def lookupV (k : String) (obj : StateObj) : Option Value :=
  (obj.find? (fun e => e.1 == k)).map (fun e => e.2)

/-- First-occurrence-ordered distinct keys (the Set over
urlParams.keys()). -/
def dedupKeys : List String → List String
  | [] => []
  | k :: rest => k :: (dedupKeys rest).filter (fun x => x != k)

/-- urlParams.getAll for the decoded entry list. -/
def valuesFor (k : String) (es : List (String × String)) : List String :=
  es.filterMap (fun e => if e.1 = k then some e.2 else none)

/-- The per-key collapse of parseQueryString: strictly more than one
occurrence gives the raw string array; otherwise the first value, passed
through toNumberable exactly when the schema default for the key is of
number type (the own-or-inherited in test combined with the typeof test
amounts to an own numeric default, since no Object.prototype property is
a number). -/
def collapseKey (initialValue : StateObj) (k : String) (vs : List String) : Value :=
  if vs.length > 1 then .arr (vs.map Scalar.str)
  else
    match lookupV k initialValue with
    | some (Value.num _) => toNumberable (.str (vs.headD ""))
    | _ => .str (vs.headD "")

/-- Model of parseQueryString from the source: URLSearchParams entries,
distinct keys in first-occurrence order, per-key collapse. -/
def parseFromEntries (es : List (String × String)) (initialValue : StateObj) : StateObj :=
  (dedupKeys (es.map (fun e => e.1))).map
    (fun k => (k, collapseKey initialValue k (valuesFor k es)))

def parseQueryString (searchParams : String) (initialValue : StateObj) : StateObj :=
  parseFromEntries (upEntries searchParams) initialValue

/-- The pieces stringifyQueryString produces for one entry: an array value
yields one piece per element, a null scalar or null element makes the
callback return undefined (modelled none), which join renders as an empty
piece; otherwise the percent-encoded name=value pair. -/
def stringifySeg (kv : String × Value) : List (Option (List Char)) :=
  match kv.2 with
  | .arr items => items.map (fun item =>
      match item with
      | .null => none
      | it => some ((encodeURIComponent kv.1).data ++ '=' ::
          (encodeURIComponent (scalarToString it)).data))
  | .null => [none]
  | v => [some ((encodeURIComponent kv.1).data ++ '=' ::
      (encodeURIComponent (valueToString v)).data)]

/-- Model of stringifyQueryString from the source: flatMap over the
entries and an ampersand join, undefined pieces rendering as empty. -/
def stringifyQueryString (obj : StateObj) : String :=
  String.mk (joinSep '&' ((obj.flatMap stringifySeg).map (fun o => o.getD [])))

structure URLRec where
  pathname : String
  search : String
deriving DecidableEq, Repr

/-- Modelled from the spec: the platform URL parser behind new URL and
the isValidUrl helper, restricted to absolute URLs of the shape
scheme://host[/path][?query][#fragment]. The pathname defaults to a
slash; search holds the query without its question mark, as the
url.searchParams view reads it. -/
def parseURL (s : String) : Option URLRec :=
  let cs := s.data
  let scheme := cs.takeWhile (fun c => c.isAlpha)
  if scheme.isEmpty then none
  else
    match cs.drop scheme.length with
    | ':' :: '/' :: '/' :: rest2 =>
      let host := rest2.takeWhile (fun c => (c != '/') && (c != '?') && (c != '#'))
      if host.isEmpty then none
      else
        let rest3 := rest2.drop host.length
        let path := rest3.takeWhile (fun c => (c != '?') && (c != '#'))
        let rest4 := rest3.drop path.length
        let search := match rest4 with
          | '?' :: t => t.takeWhile (fun c => c != '#')
          | _ => []
        some { pathname := if path.isEmpty then "/" else String.mk path,
               search := String.mk search }
    | _ => none

/-- The environment: either no window (non-interactive context) or a
window with a current href and with or without addEventListener. -/
inductive Env where
  | noWindow
  | window (href : String) (hasListeners : Bool)

structure HookOpts where
  isSyncPathname : Bool
  hasPathnameDelegate : Bool

/-- Observable effects of one step: history pushes, calls of the
onPathnameChange delegate, and calls of the onValueChange observer. -/
structure Effects where
  pushes : List String
  delegated : List String
  notified : List StateObj
deriving DecidableEq, Repr

def Effects.app (a b : Effects) : Effects :=
  ⟨a.pushes ++ b.pushes, a.delegated ++ b.delegated, a.notified ++ b.notified⟩

/-- The own-or-inherited property test (the JS in operator): an own key,
or a property inherited from Object.prototype. -/
def objectProtoKeys : List String :=
  ["constructor", "hasOwnProperty", "isPrototypeOf", "propertyIsEnumerable",
   "toLocaleString", "toString", "valueOf", "__proto__", "__defineGetter__",
   "__defineSetter__", "__lookupGetter__", "__lookupSetter__"]

def jsIn (k : String) (obj : StateObj) : Bool :=
  (lookupV k obj).isSome || objectProtoKeys.contains k

/-- Object.assign(a, b): the keys of a in order with the values of b
where b has the key, then the keys of b that are new, in order. -/
def jsAssign (a b : StateObj) : StateObj :=
  a.map (fun e => (e.1, (lookupV e.1 b).getD e.2)) ++
    b.filter (fun e => (lookupV e.1 a).isNone)

/-- The foreign-key filtering loop of getInitialStateWithQueryString: for
each key yielded by the live URLSearchParams iterator, delete every entry
with that key when the key fails the in test. The iterator is index-based
over the live entry list, so a deletion shifts later entries one slot
left while the index still advances — modelled exactly as the platform
behaves. The fuel is the initial length: the index grows by one per step
and the list never grows, so the loop runs at most that many steps. -/
def filterEntriesGo (initialValue : StateObj) :
    Nat → List (String × String) → Nat → List (String × String)
  | 0, l, _ => l
  | f+1, l, i =>
    if h : i < l.length then
      if jsIn (l.get ⟨i, h⟩).1 initialValue then filterEntriesGo initialValue f l (i+1)
      else filterEntriesGo initialValue f
        (l.filter (fun e => e.1 != (l.get ⟨i, h⟩).1)) (i+1)
    else l

def filterEntries (initialValue : StateObj) (l : List (String × String)) :
    List (String × String) :=
  filterEntriesGo initialValue l.length l 0

/-- Model of getInitialStateWithQueryString: with a window and a valid
URL, filter foreign keys out of url.searchParams with the live iterator,
serialize back (searchParams.toString), parse with the default codec, and
overlay the result onto the defaults (Object.assign with a fresh target);
in every other situation the defaults are returned verbatim. The
try/catch of the source is analysed in the Except-based variant below. -/
def getInitialStateWithQueryString (initialValue : StateObj) (env : Env) : StateObj :=
  match env with
  | .noWindow => initialValue
  | .window href _ =>
    match parseURL href with
    | none => initialValue
    | some url =>
      let filtered := filterEntries initialValue (upEntries url.search)
      let urlParsed := parseQueryString (serializeForm filtered) initialValue
      jsAssign initialValue urlParsed

/-- An update payload: the source distinguishes the RESET sentinel, an
updater function and a plain replacement value by runtime inspection;
here they form a tagged sum. -/
inductive Payload where
  | replace (v : StateObj)
  | update (f : StateObj → StateObj)
  | reset

def resolvePayload (initialValue cur : StateObj) : Payload → StateObj
  | .replace v => v
  | .update f => f cur
  | .reset => initialValue

/-- Model of setState: resolve the payload, store it and notify the
observer; then — whenever a window with a valid URL exists, with no
isSyncPathname test in this branch of the source — parse the current
search params (through searchParams.toString), overlay the full payload
onto the parsed mapping (Object.assign), stringify, and either hand the
composed path to the pathname delegate or push it on the history. -/
def setStateCore (initialValue : StateObj) (opts : HookOpts) (cur : StateObj) (env : Env)
    (value : Payload) : StateObj × Effects :=
  let payload := resolvePayload initialValue cur value
  match env with
  | .noWindow => (payload, ⟨[], [], [payload]⟩)
  | .window href _ =>
    match parseURL href with
    | none => (payload, ⟨[], [], [payload]⟩)
    | some url =>
      let parsed := parseQueryString (serializeForm (upEntries url.search)) initialValue
      let searchParams := stringifyQueryString (jsAssign parsed payload)
      let resultUrl := url.pathname ++ "?" ++ searchParams
      if opts.hasPathnameDelegate then (payload, ⟨[], [resultUrl], [payload]⟩)
      else (payload, ⟨[resultUrl], [], [payload]⟩)

/-- Model of the popstate handler: it is registered only when a window
with addEventListener exists; when sync mode is on it replaces the state
with the init-logic recomputation from the current URL and performs no
URL write of its own. -/
def handlePopState (initialValue : StateObj) (opts : HookOpts) (cur : StateObj) (env : Env) :
    StateObj × Effects :=
  match env with
  | .window _ true =>
    if opts.isSyncPathname then
      (getInitialStateWithQueryString initialValue env, ⟨[], [], []⟩)
    else (cur, ⟨[], [], []⟩)
  | _ => (cur, ⟨[], [], []⟩)

/-- The reset action exactly as the source builds it:
useCallback of a function returning a function that calls setState with
the RESET sentinel. Invoking the returned action produces the inner
closure and runs no setState; only invoking that inner closure performs
the reset. -/
def reset (initialValue : StateObj) (opts : HookOpts) (cur : StateObj) (env : Env) :
    Unit → Unit → StateObj × Effects :=
  fun _ _ => setStateCore initialValue opts cur env .reset

inductive Ev where
  | setSt (p : Payload)
  | resetCall
  | popSt

/-- One externally triggered step of a hook session. resetCall is one
invocation of the returned reset action: by the shape of reset it only
builds the inner closure, leaving state and world untouched. -/
def stepEv (initialValue : StateObj) (opts : HookOpts) (cur : StateObj) :
    Env → Ev → StateObj × Effects
  | env, .setSt p => setStateCore initialValue opts cur env p
  | env, .resetCall =>
    let inner := reset initialValue opts cur env ()
    let _ := inner
    (cur, ⟨[], [], []⟩)
  | env, .popSt => handlePopState initialValue opts cur env

def runEvents (initialValue : StateObj) (opts : HookOpts) :
    StateObj → List (Env × Ev) → StateObj × Effects
  | cur, [] => (cur, ⟨[], [], []⟩)
  | cur, (env, e) :: rest =>
    let r := stepEv initialValue opts cur env e
    let r2 := runEvents initialValue opts r.1 rest
    (r2.1, Effects.app r.2 r2.2)

def jsNewURL (s : String) : Except String URLRec :=
  match parseURL s with
  | some u => .ok u
  | none => .error "Invalid URL"

/-- Model of isValidUrl: try new URL, catch, return a Boolean. -/
def isValidUrl (s : String) : Bool :=
  match jsNewURL s with
  | .ok _ => true
  | .error _ => false

/-- The fallible body of getInitialStateWithQueryString with its throw
site (the second new URL) explicit. -/
def getInitialStateBody (initialValue : StateObj) (href : String) :
    Except String StateObj :=
  if isValidUrl href then
    match jsNewURL href with
    | .error e => .error e
    | .ok url =>
      .ok (jsAssign initialValue (parseQueryString
        (serializeForm (filterEntries initialValue (upEntries url.search))) initialValue))
  else .ok initialValue

/-- getInitialStateWithQueryString with the try/catch explicit: an error
of the body is caught (logged) and the defaults are substituted. -/
def getInitialStateE (initialValue : StateObj) (env : Env) : Except String StateObj :=
  match env with
  | .noWindow => .ok initialValue
  | .window href _ =>
    match getInitialStateBody initialValue href with
    | .ok s => .ok s
    | .error _ => .ok initialValue

/-- setState with its throw site explicit; the source has no catch here,
only the isValidUrl guard before the second new URL. -/
def setStateE (initialValue : StateObj) (opts : HookOpts) (cur : StateObj) (env : Env)
    (value : Payload) : Except String (StateObj × Effects) :=
  let payload := resolvePayload initialValue cur value
  match env with
  | .noWindow => .ok (payload, ⟨[], [], [payload]⟩)
  | .window href _ =>
    if isValidUrl href then
      match jsNewURL href with
      | .error e => .error e
      | .ok url =>
        let parsed := parseQueryString (serializeForm (upEntries url.search)) initialValue
        let searchParams := stringifyQueryString (jsAssign parsed payload)
        let resultUrl := url.pathname ++ "?" ++ searchParams
        if opts.hasPathnameDelegate then .ok (payload, ⟨[], [resultUrl], [payload]⟩)
        else .ok (payload, ⟨[resultUrl], [], [payload]⟩)
    else .ok (payload, ⟨[], [], [payload]⟩)

/-- One encoded name=value pair as encodeURIComponent renders it. -/
def uriSeg (ent : String × String) : List Char :=
  (encodeURIComponent ent.1).data ++ '=' :: (encodeURIComponent ent.2).data

def renderPiece : Option (String × String) → List Char
  | none => []
  | some ent => uriSeg ent

/-- The optional (name, value) pairs of one entry, none standing for an
omitted null. -/
def pairsOptEnt (kv : String × Value) : List (Option (String × String)) :=
  match kv.2 with
  | .arr items => items.map (fun item =>
      match item with
      | .null => none
      | it => some (kv.1, scalarToString it))
  | .null => [none]
  | v => [some (kv.1, valueToString v)]

def pairsOpt (obj : StateObj) : List (Option (String × String)) :=
  obj.flatMap pairsOptEnt

/-- The pairs of the entries whose values are not null: the name=value
pairs stringify actually emits. -/
def expandPairs (obj : StateObj) : List (String × String) :=
  (pairsOpt obj).filterMap id

/-- The values stringify emits for one value: array elements without the
nulls, nothing for null, the single rendered scalar otherwise. -/
def expandVals : Value → List String
  | .arr items => items.filterMap (fun it =>
      match it with
      | .null => none
      | it => some (scalarToString it))
  | .null => []
  | v => [valueToString v]

/-- The residue of one round trip through the default codec, as directed
by the schema: every array element is replaced by its string form; a
scalar is rendered to its string form and re-coerced by toNumberable
exactly when the schema default for its key is a number. -/
def roundCoerce (initialValue : StateObj) (k : String) : Value → Value
  | .arr items => .arr (items.map (fun it => Scalar.str (scalarToString it)))
  | .null => .null
  | v =>
    match lookupV k initialValue with
    | some (.num _) => toNumberable (.str (valueToString v))
    | _ => .str (valueToString v)

/-- Well-formed round-trippable value: not null, and an array has at
least two elements, none of them null (a singleton array collapses to a
scalar on re-parse and an empty array disappears; a null is omitted). -/
def WFValue : Value → Prop
  | .null => False
  | .arr items => 2 ≤ items.length ∧ ∀ it ∈ items, it ≠ .null
  | _ => True

instance : DecidablePred WFValue := fun v => by
  rcases v with s | n | _ | items <;> simp only [WFValue] <;> infer_instance

/-- A non-null scalar value: a string or a number. -/
def ScalarNN : Value → Prop
  | .str _ => True
  | .num _ => True
  | _ => False

instance : DecidablePred ScalarNN := fun v => by
  rcases v with s | n | _ | items <;> simp only [ScalarNN] <;> infer_instance

/-- Whether the environment exposes a window whose href is a valid URL. -/
def envHasValidHref : Env → Bool
  | .noWindow => false
  | .window h _ => (parseURL h).isSome

def exceptOk {ε α : Type} : Except ε α → Bool
  | .ok _ => true
  | .error _ => false

/-- The payload covers a schema entry whenever that entry's default is
numeric (every full replacement state does). -/
def NumCovered (pl : StateObj) (kv : String × Value) : Prop :=
  match kv.2 with
  | Value.num _ => (lookupV kv.1 pl).isSome = true
  | _ => True

instance (pl : StateObj) : DecidablePred (NumCovered pl) := fun kv => by
  rcases kv with ⟨k, v⟩
  rcases v with s | n | _ | items <;> simp only [NumCovered] <;> infer_instance

/-! ### Theorems. -/

theorem char_toNat_lt (c : Char) : c.toNat < 0x110000 := by
  have h := c.valid
  simp only [UInt32.isValidChar, Nat.isValidChar] at h
  have he : c.toNat = c.val.toNat := rfl
  rcases h with h | h <;> omega

theorem utf8EncodeChar_ne_nil (c : Char) : utf8EncodeChar c ≠ [] := by
  simp only [utf8EncodeChar]
  split_ifs <;> simp

theorem utf8EncodeChar_of_lt_128 (c : Char) (h : c.toNat < 0x80) :
    utf8EncodeChar c = [c.toNat] := by
  simp [utf8EncodeChar, h]

theorem utf8DecodeGo_encode_cons (c : Char) (rest : List Nat) (f : Nat) :
    utf8DecodeGo (f + 1) (utf8EncodeChar c ++ rest) = c :: utf8DecodeGo f rest := by
  have hlt := char_toNat_lt c
  by_cases h1 : c.toNat < 0x80
  · rw [utf8EncodeChar_of_lt_128 c h1, List.cons_append, List.nil_append]
    simp only [utf8DecodeGo]
    rw [if_pos h1, Char.ofNat_toNat]
  · by_cases h2 : c.toNat < 0x800
    · have henc : utf8EncodeChar c = [0xC0 + c.toNat / 64, 0x80 + c.toNat % 64] := by
        simp [utf8EncodeChar, h1, h2]
      rw [henc]
      simp only [List.cons_append, List.nil_append]
      simp only [utf8DecodeGo]
      rw [if_neg (by omega), if_neg (by omega), if_pos (by omega)]
      rw [if_pos (show isCont (0x80 + c.toNat % 64) = true by
        simp only [isCont, Bool.and_eq_true, decide_eq_true_eq]; omega)]
      rw [show (0xC0 + c.toNat / 64 - 0xC0) * 64 + (0x80 + c.toNat % 64 - 0x80) = c.toNat by omega,
        Char.ofNat_toNat]
    · by_cases h3 : c.toNat < 0x10000
      · have henc : utf8EncodeChar c =
            [0xE0 + c.toNat / 4096, 0x80 + c.toNat / 64 % 64, 0x80 + c.toNat % 64] := by
          simp [utf8EncodeChar, h1, h2, h3]
        rw [henc]
        simp only [List.cons_append, List.nil_append]
        simp only [utf8DecodeGo]
        rw [if_neg (by omega), if_neg (by omega), if_neg (by omega), if_pos (by omega)]
        rw [if_pos (show (isCont (0x80 + c.toNat / 64 % 64) && isCont (0x80 + c.toNat % 64)) = true by
          simp only [isCont, Bool.and_eq_true, decide_eq_true_eq]; omega)]
        rw [show (0xE0 + c.toNat / 4096 - 0xE0) * 4096 + (0x80 + c.toNat / 64 % 64 - 0x80) * 64 +
            (0x80 + c.toNat % 64 - 0x80) = c.toNat by omega, Char.ofNat_toNat]
      · have henc : utf8EncodeChar c = [0xF0 + c.toNat / 0x40000, 0x80 + c.toNat / 4096 % 64,
            0x80 + c.toNat / 64 % 64, 0x80 + c.toNat % 64] := by
          simp [utf8EncodeChar, h1, h2, h3]
        rw [henc]
        simp only [List.cons_append, List.nil_append]
        simp only [utf8DecodeGo]
        rw [if_neg (by omega), if_neg (by omega), if_neg (by omega), if_neg (by omega)]
        rw [if_pos (show (isCont (0x80 + c.toNat / 4096 % 64) && isCont (0x80 + c.toNat / 64 % 64) &&
            isCont (0x80 + c.toNat % 64)) = true by
          simp only [isCont, Bool.and_eq_true, decide_eq_true_eq]; omega)]
        rw [show (0xF0 + c.toNat / 0x40000 - 0xF0) * 0x40000 + (0x80 + c.toNat / 4096 % 64 - 0x80) * 4096 +
            (0x80 + c.toNat / 64 % 64 - 0x80) * 64 + (0x80 + c.toNat % 64 - 0x80) = c.toNat by omega,
          Char.ofNat_toNat]

theorem utf8DecodeGo_flatMap (f : Nat) :
    ∀ cs : List Char, (cs.flatMap utf8EncodeChar).length ≤ f →
      utf8DecodeGo f (cs.flatMap utf8EncodeChar) = cs := by
  induction f with
  | zero =>
    intro cs h
    match cs with
    | [] => rfl
    | c :: cs =>
      exfalso
      have hne := utf8EncodeChar_ne_nil c
      have hpos : 0 < (utf8EncodeChar c).length := List.length_pos.mpr hne
      simp only [List.flatMap_cons, List.length_append] at h
      omega
  | succ f ih =>
    intro cs h
    match cs with
    | [] => rfl
    | c :: cs =>
      simp only [List.flatMap_cons]
      rw [utf8DecodeGo_encode_cons]
      congr 1
      apply ih
      have hne := utf8EncodeChar_ne_nil c
      have hpos : 0 < (utf8EncodeChar c).length := List.length_pos.mpr hne
      simp only [List.flatMap_cons, List.length_append] at h
      omega

theorem utf8Decode_flatMap (cs : List Char) :
    utf8Decode (cs.flatMap utf8EncodeChar) = cs :=
  utf8DecodeGo_flatMap _ cs le_rfl

theorem utf8EncodeChar_lt_256 (c : Char) : ∀ b ∈ utf8EncodeChar c, b < 256 := by
  have hlt := char_toNat_lt c
  intro b hb
  by_cases h1 : c.toNat < 0x80
  · rw [utf8EncodeChar_of_lt_128 c h1] at hb
    simp only [List.mem_singleton] at hb
    omega
  · by_cases h2 : c.toNat < 0x800
    · have henc : utf8EncodeChar c = [0xC0 + c.toNat / 64, 0x80 + c.toNat % 64] := by
        simp [utf8EncodeChar, h1, h2]
      rw [henc] at hb
      simp only [List.mem_cons, List.not_mem_nil, or_false] at hb
      rcases hb with rfl | rfl <;> omega
    · by_cases h3 : c.toNat < 0x10000
      · have henc : utf8EncodeChar c =
            [0xE0 + c.toNat / 4096, 0x80 + c.toNat / 64 % 64, 0x80 + c.toNat % 64] := by
          simp [utf8EncodeChar, h1, h2, h3]
        rw [henc] at hb
        simp only [List.mem_cons, List.not_mem_nil, or_false] at hb
        rcases hb with rfl | rfl | rfl <;> omega
      · have henc : utf8EncodeChar c = [0xF0 + c.toNat / 0x40000, 0x80 + c.toNat / 4096 % 64,
            0x80 + c.toNat / 64 % 64, 0x80 + c.toNat % 64] := by
          simp [utf8EncodeChar, h1, h2, h3]
        rw [henc] at hb
        simp only [List.mem_cons, List.not_mem_nil, or_false] at hb
        rcases hb with rfl | rfl | rfl | rfl <;> omega

theorem hexVal_hexDigitChar (k : Nat) (hk : k < 16) :
    hexVal (hexDigitChar k) = some k := by
  interval_cases k <;> decide

theorem tokenBytesGo_nil (f : Nat) : tokenBytesGo f [] = [] := by cases f <;> rfl

theorem tbGo_plus (f : Nat) (rest : List Char) :
    tokenBytesGo (f + 1) ('+' :: rest) = 32 :: tokenBytesGo f rest := by
  simp [tokenBytesGo]

theorem tbGo_other (f : Nat) (c : Char) (h1 : c ≠ '+') (h2 : c ≠ '%') (rest : List Char) :
    tokenBytesGo (f + 1) (c :: rest) = utf8EncodeChar c ++ tokenBytesGo f rest := by
  simp only [tokenBytesGo]
  rw [if_neg h1, if_neg h2]

theorem tbGo_pct (f : Nat) (d1 d2 : Char) (v1 v2 : Nat)
    (h1 : hexVal d1 = some v1) (h2 : hexVal d2 = some v2) (rest : List Char) :
    tokenBytesGo (f + 1) ('%' :: d1 :: d2 :: rest) = (16 * v1 + v2) :: tokenBytesGo f rest := by
  simp only [tokenBytesGo]
  rw [if_pos trivial]
  simp only [h1, h2]
  simp

theorem tbGo_pct_bad (f : Nat) (d1 d2 : Char)
    (h : hexVal d1 = none ∨ hexVal d2 = none) (rest : List Char) :
    tokenBytesGo (f + 1) ('%' :: d1 :: d2 :: rest) = 37 :: tokenBytesGo f (d1 :: d2 :: rest) := by
  simp only [tokenBytesGo]
  rw [if_pos trivial]
  rcases e1 : hexVal d1 with _ | v1 <;> rcases e2 : hexVal d2 with _ | v2 <;> simp only [] <;>
    simp_all

theorem tbGo_pct_short0 (f : Nat) :
    tokenBytesGo (f + 1) ['%'] = 37 :: tokenBytesGo f [] := by
  simp [tokenBytesGo]

theorem tbGo_pct_short1 (f : Nat) (d1 : Char) :
    tokenBytesGo (f + 1) ['%', d1] = 37 :: tokenBytesGo f [d1] := by
  simp [tokenBytesGo]

/-- Fuel irrelevance: any fuel at least the length of the list computes
the same bytes as the canonical fuel. -/
theorem tokenBytesGo_eq (f : Nat) :
    ∀ cs : List Char, cs.length ≤ f → tokenBytesGo f cs = tokenBytes cs := by
  induction f using Nat.strong_induction_on with
  | _ f IH =>
    intro cs hlen
    rcases f with _ | f
    · rcases cs with _ | ⟨c, rest⟩
      · rfl
      · simp at hlen
    rcases cs with _ | ⟨c, rest⟩
    · rfl
    show tokenBytesGo (f+1) (c :: rest) = tokenBytesGo (rest.length + 1) (c :: rest)
    by_cases hp : c = '+'
    · subst hp
      rw [tbGo_plus, tbGo_plus, IH f (by omega) rest (by simp at hlen; omega)]
      rfl
    · by_cases hc : c = '%'
      · subst hc
        rcases rest with _ | ⟨d1, _ | ⟨d2, rest2⟩⟩
        · rw [tbGo_pct_short0, tbGo_pct_short0, tokenBytesGo_nil, tokenBytesGo_nil]
        · rw [tbGo_pct_short1, tbGo_pct_short1, IH f (by omega) [d1] (by simp at hlen; simp; omega)]
          rfl
        · rcases e1 : hexVal d1 with _ | v1
          · rw [tbGo_pct_bad f d1 d2 (Or.inl e1), tbGo_pct_bad _ d1 d2 (Or.inl e1),
              IH f (by omega) (d1 :: d2 :: rest2) (by simp at hlen; simp; omega)]
            rfl
          · rcases e2 : hexVal d2 with _ | v2
            · rw [tbGo_pct_bad f d1 d2 (Or.inr e2), tbGo_pct_bad _ d1 d2 (Or.inr e2),
                IH f (by omega) (d1 :: d2 :: rest2) (by simp at hlen; simp; omega)]
              rfl
            · rw [tbGo_pct f d1 d2 v1 v2 e1 e2, tbGo_pct _ d1 d2 v1 v2 e1 e2,
                IH f (by omega) rest2 (by simp at hlen; omega),
                IH (d1 :: d2 :: rest2).length (by simp at hlen ⊢; omega) rest2 (by simp; omega)]
      · rw [tbGo_other f c hp hc, tbGo_other rest.length c hp hc,
          IH f (by omega) rest (by simp at hlen; omega)]
        rfl

theorem tokenBytes_nil : tokenBytes [] = [] := rfl

theorem tokenBytes_plus (rest : List Char) :
    tokenBytes ('+' :: rest) = 32 :: tokenBytes rest := by
  show tokenBytesGo (rest.length + 1) ('+' :: rest) = _
  rw [tbGo_plus]
  rfl

theorem tokenBytes_other (c : Char) (h1 : c ≠ '+') (h2 : c ≠ '%') (rest : List Char) :
    tokenBytes (c :: rest) = utf8EncodeChar c ++ tokenBytes rest := by
  show tokenBytesGo (rest.length + 1) (c :: rest) = _
  rw [tbGo_other _ c h1 h2]
  rfl

theorem tokenBytes_percent_ok (d1 d2 : Char) (v1 v2 : Nat)
    (h1 : hexVal d1 = some v1) (h2 : hexVal d2 = some v2) (rest : List Char) :
    tokenBytes ('%' :: d1 :: d2 :: rest) = (16 * v1 + v2) :: tokenBytes rest := by
  show tokenBytesGo (rest.length + 1 + 1 + 1) ('%' :: d1 :: d2 :: rest) = _
  rw [tbGo_pct _ d1 d2 v1 v2 h1 h2, tokenBytesGo_eq (rest.length + 1 + 1) rest (by omega)]

theorem tokenBytes_percentByte (b : Nat) (hb : b < 256) (rest : List Char) :
    tokenBytes (percentByte b ++ rest) = b :: tokenBytes rest := by
  simp only [percentByte, List.cons_append, List.nil_append]
  rw [tokenBytes_percent_ok (hexDigitChar (b / 16)) (hexDigitChar (b % 16)) (b / 16) (b % 16)
    (hexVal_hexDigitChar (b / 16) (by omega)) (hexVal_hexDigitChar (b % 16) (by omega))]
  rw [show 16 * (b / 16) + b % 16 = b by omega]

theorem tokenBytes_percent_flatMap (bs : List Nat) (hb : ∀ b ∈ bs, b < 256) (rest : List Char) :
    tokenBytes (bs.flatMap percentByte ++ rest) = bs ++ tokenBytes rest := by
  induction bs with
  | nil => simp
  | cons b bs ih =>
    simp only [List.flatMap_cons, List.append_assoc, List.cons_append]
    rw [tokenBytes_percentByte b (hb b (by simp)) _]
    rw [ih (fun x hx => hb x (by simp [hx]))]

theorem uriUnreserved_good : GoodSafe uriUnreserved := by
  intro c h
  simp only [uriUnreserved, Bool.or_eq_true, Bool.and_eq_true, decide_eq_true_eq,
    beq_iff_eq] at h
  omega

theorem formSafe_good : GoodSafe formSafe := by
  intro c h
  simp only [formSafe, Bool.or_eq_true, Bool.and_eq_true, decide_eq_true_eq,
    beq_iff_eq] at h
  omega

theorem char_ne_of_toNat_ne {c d : Char} (h : c.toNat ≠ d.toNat) : c ≠ d := by
  intro he
  subst he
  exact h rfl

theorem tokenBytes_chunk (safe : Char → Bool) (plusSpace : Bool) (hsafe : GoodSafe safe)
    (c : Char) (rest : List Char) :
    tokenBytes (encodeCharWith safe plusSpace c ++ rest) =
      utf8EncodeChar c ++ tokenBytes rest := by
  by_cases hplus : (plusSpace && (c == ' ')) = true
  · have hc : c = ' ' := beq_iff_eq.mp (Bool.and_eq_true _ _ |>.mp hplus).2
    subst hc
    rw [show encodeCharWith safe plusSpace ' ' = ['+'] from by
      simp only [encodeCharWith]; rw [if_pos hplus]]
    rw [List.cons_append, List.nil_append, tokenBytes_plus]
    rw [show utf8EncodeChar ' ' = [32] from by decide]
    rfl
  · by_cases hsafec : safe c = true
    · rw [show encodeCharWith safe plusSpace c = [c] from by
        simp only [encodeCharWith]; rw [if_neg hplus, if_pos hsafec]]
      obtain ⟨ha, hp, hpl⟩ := hsafe c hsafec
      rw [List.cons_append, List.nil_append,
        tokenBytes_other c (char_ne_of_toNat_ne (by simpa using hpl))
          (char_ne_of_toNat_ne (by simpa using hp))]
    · rw [show encodeCharWith safe plusSpace c = (utf8EncodeChar c).flatMap percentByte from by
        simp only [encodeCharWith]; rw [if_neg hplus, if_neg hsafec]]
      exact tokenBytes_percent_flatMap _ (utf8EncodeChar_lt_256 c) rest

theorem tokenBytes_encodeChars (safe : Char → Bool) (plusSpace : Bool) (hsafe : GoodSafe safe) :
    ∀ (cs rest : List Char),
      tokenBytes (encodeChars safe plusSpace cs ++ rest) =
        cs.flatMap utf8EncodeChar ++ tokenBytes rest := by
  intro cs
  induction cs with
  | nil => intro rest; simp [encodeChars]
  | cons c cs ih =>
    intro rest
    simp only [encodeChars, List.flatMap_cons, List.append_assoc] at *
    rw [tokenBytes_chunk safe plusSpace hsafe, ih]

theorem decodeChars_encodeChars (safe : Char → Bool) (plusSpace : Bool)
    (hsafe : GoodSafe safe) (cs : List Char) :
    decodeChars (encodeChars safe plusSpace cs) = cs := by
  unfold decodeChars
  have h := tokenBytes_encodeChars safe plusSpace hsafe cs []
  rw [List.append_nil] at h
  rw [h, tokenBytes_nil, List.append_nil]
  exact utf8Decode_flatMap cs

theorem percentByte_chars (b : Nat) (hb : b < 256) :
    ∀ x ∈ percentByte b, x.toNat = 37 ∨ (48 ≤ x.toNat ∧ x.toNat ≤ 57) ∨
      (65 ≤ x.toNat ∧ x.toNat ≤ 70) := by
  intro x hx
  have hdig : ∀ k : Nat, k < 16 → (48 ≤ (hexDigitChar k).toNat ∧ (hexDigitChar k).toNat ≤ 57) ∨
      (65 ≤ (hexDigitChar k).toNat ∧ (hexDigitChar k).toNat ≤ 70) := by
    intro k hk
    interval_cases k <;> decide
  simp only [percentByte, List.mem_cons, List.not_mem_nil, or_false] at hx
  rcases hx with rfl | rfl | rfl
  · left; rfl
  · right
    exact hdig (b / 16) (by omega)
  · right
    exact hdig (b % 16) (by omega)

/-- Every character an encoder emits avoids the structural separators:
it is neither an ampersand (38) nor an equals sign (61) nor a question
mark (63). -/
theorem encodeCharWith_no_sep (safe : Char → Bool) (plusSpace : Bool)
    (hsep : ∀ c, safe c = true → c.toNat ≠ 38 ∧ c.toNat ≠ 61 ∧ c.toNat ≠ 63) (c : Char) :
    ∀ x ∈ encodeCharWith safe plusSpace c, x.toNat ≠ 38 ∧ x.toNat ≠ 61 ∧ x.toNat ≠ 63 := by
  intro x hx
  unfold encodeCharWith at hx
  by_cases hplus : (plusSpace && (c == ' ')) = true
  · rw [if_pos hplus] at hx
    simp only [List.mem_singleton] at hx
    subst hx
    refine ⟨by decide, by decide, by decide⟩
  · rw [if_neg hplus] at hx
    by_cases hsafec : safe c = true
    · rw [if_pos hsafec] at hx
      simp only [List.mem_singleton] at hx
      rw [hx]
      exact hsep c hsafec
    · rw [if_neg hsafec] at hx
      simp only [List.mem_flatMap] at hx
      obtain ⟨b, hb, hxb⟩ := hx
      have := percentByte_chars b (utf8EncodeChar_lt_256 c b hb) x hxb
      rcases this with h | h | h <;> omega

theorem uriUnreserved_sep : ∀ c, uriUnreserved c = true →
    c.toNat ≠ 38 ∧ c.toNat ≠ 61 ∧ c.toNat ≠ 63 := by
  intro c h
  simp only [uriUnreserved, Bool.or_eq_true, Bool.and_eq_true, decide_eq_true_eq,
    beq_iff_eq] at h
  omega

theorem formSafe_sep : ∀ c, formSafe c = true →
    c.toNat ≠ 38 ∧ c.toNat ≠ 61 ∧ c.toNat ≠ 63 := by
  intro c h
  simp only [formSafe, Bool.or_eq_true, Bool.and_eq_true, decide_eq_true_eq,
    beq_iff_eq] at h
  omega

theorem encodeChars_no_sep (safe : Char → Bool) (plusSpace : Bool)
    (hsep : ∀ c, safe c = true → c.toNat ≠ 38 ∧ c.toNat ≠ 61 ∧ c.toNat ≠ 63) (cs : List Char) :
    ∀ x ∈ encodeChars safe plusSpace cs, x.toNat ≠ 38 ∧ x.toNat ≠ 61 ∧ x.toNat ≠ 63 := by
  intro x hx
  simp only [encodeChars, List.mem_flatMap] at hx
  obtain ⟨c, _, hxc⟩ := hx
  exact encodeCharWith_no_sep safe plusSpace hsep c x hxc

theorem joinSep_cons_cons (sep : Char) (s t : List Char) (ss : List (List Char)) :
    joinSep sep (s :: t :: ss) = s ++ sep :: joinSep sep (t :: ss) := by
  simp [joinSep]

theorem splitSep_no_sep (sep : Char) :
    ∀ cs : List Char, sep ∉ cs → splitSep sep cs = [cs] := by
  intro cs h
  induction cs with
  | nil => rfl
  | cons c rest ih =>
    simp only [List.mem_cons, not_or] at h
    simp only [splitSep]
    rw [if_neg (fun he => h.1 he.symm), ih h.2]

theorem splitSep_append (sep : Char) :
    ∀ (a r : List Char), sep ∉ a →
      splitSep sep (a ++ sep :: r) = a :: splitSep sep r := by
  intro a
  induction a with
  | nil =>
    intro r _
    simp [splitSep]
  | cons c a2 ih =>
    intro r h
    simp only [List.mem_cons, not_or] at h
    simp only [List.cons_append, splitSep, List.append_eq]
    rw [if_neg (fun he => h.1 he.symm), ih r h.2]

theorem splitSep_joinSep (sep : Char) :
    ∀ segs : List (List Char), segs ≠ [] → (∀ s ∈ segs, sep ∉ s) →
      splitSep sep (joinSep sep segs) = segs := by
  intro segs
  induction segs with
  | nil => intro h; exact absurd rfl h
  | cons s ss ih =>
    intro _ hsep
    rcases ss with _ | ⟨t, ss2⟩
    · show splitSep sep (joinSep sep [s]) = [s]
      rw [show joinSep sep [s] = s by simp [joinSep]]
      exact splitSep_no_sep sep s (hsep s (by simp))
    · rw [joinSep_cons_cons, splitSep_append sep s _ (hsep s (by simp)),
        ih (by simp) (fun x hx => hsep x (List.mem_cons_of_mem s hx))]

theorem splitFirstEq_append :
    ∀ (k v : List Char), '=' ∉ k → splitFirstEq (k ++ '=' :: v) = (k, v) := by
  intro k
  induction k with
  | nil =>
    intro v _
    simp [splitFirstEq]
  | cons c k2 ih =>
    intro v h
    simp only [List.mem_cons, not_or] at h
    simp only [List.cons_append, splitFirstEq, List.append_eq]
    rw [if_neg (fun he => h.1 he.symm), ih v h.2]

theorem stripQM_of_head_ne (cs : List Char) (h : ∀ x l, cs = x :: l → x ≠ '?') :
    stripQM cs = cs := by
  cases cs with
  | nil => rfl
  | cons x l =>
    simp only [stripQM]
    rw [if_neg (h x l rfl)]

theorem mk_data (s : String) : String.mk s.data = s := by
  cases s
  rfl

theorem joinSep_head_mem (s : List Char) (ss : List (List Char)) (x : Char) (l : List Char)
    (h : joinSep '&' (s :: ss) = x :: l) : x ∈ s ∨ x = '&' := by
  rcases s with _ | ⟨y, ys⟩
  · rcases ss with _ | ⟨t, ts⟩
    · simp [joinSep] at h
    · right
      simp only [joinSep, List.nil_append, List.flatMap_cons, List.cons_append,
        List.cons.injEq] at h
      exact h.1.symm
  · left
    simp only [joinSep, List.cons_append, List.cons.injEq] at h
    rw [← h.1]
    exact List.mem_cons_self y ys

theorem formSeg_no_amp (ent : String × String) : '&' ∉ formSeg ent := by
  intro hmem
  simp only [formSeg, List.mem_append, List.mem_cons] at hmem
  rcases hmem with h | h | h
  · exact (encodeChars_no_sep formSafe true formSafe_sep ent.1.data '&' h).1 rfl
  · exact absurd h.symm (by decide)
  · exact (encodeChars_no_sep formSafe true formSafe_sep ent.2.data '&' h).1 rfl

theorem formSeg_no_qm (ent : String × String) : ∀ x ∈ formSeg ent, x ≠ '?' := by
  intro x hmem
  simp only [formSeg, List.mem_append, List.mem_cons] at hmem
  rcases hmem with h | h | h
  · exact char_ne_of_toNat_ne (encodeChars_no_sep formSafe true formSafe_sep ent.1.data x h).2.2
  · rw [h]
    decide
  · exact char_ne_of_toNat_ne (encodeChars_no_sep formSafe true formSafe_sep ent.2.data x h).2.2

theorem upEntries_formSeg (ent : String × String) :
    (if (formSeg ent).isEmpty = true then none
      else some (String.mk (decodeChars (splitFirstEq (formSeg ent)).1),
        String.mk (decodeChars (splitFirstEq (formSeg ent)).2))) = some ent := by
  have hempty : (formSeg ent).isEmpty = false := by
    rcases hk : encodeChars formSafe true ent.1.data with _ | ⟨y, ys⟩ <;> simp [formSeg, hk]
  rw [hempty]
  simp only [Bool.false_eq_true, if_false]
  rw [show formSeg ent = encodeChars formSafe true ent.1.data ++ '=' ::
      encodeChars formSafe true ent.2.data from rfl]
  rw [splitFirstEq_append _ _ (fun hmem =>
    (encodeChars_no_sep formSafe true formSafe_sep ent.1.data '=' hmem).2.1 rfl)]
  rw [decodeChars_encodeChars formSafe true formSafe_good,
    decodeChars_encodeChars formSafe true formSafe_good, mk_data, mk_data]

theorem upEntries_serializeForm (entries : List (String × String)) :
    upEntries (serializeForm entries) = entries := by
  rcases entries with _ | ⟨e, es⟩
  · rfl
  unfold upEntries serializeForm
  rw [show ∀ l : List (String × String), l.map (fun ent =>
      encodeChars formSafe true ent.1.data ++ '=' :: encodeChars formSafe true ent.2.data) =
      l.map formSeg from fun l => rfl]
  rw [show (String.mk (joinSep '&' ((e :: es).map formSeg))).data =
      joinSep '&' ((e :: es).map formSeg) from rfl]
  rw [stripQM_of_head_ne _ (by
    intro x l hxl
    rw [List.map_cons] at hxl
    rcases joinSep_head_mem _ _ _ _ hxl with h | h
    · exact formSeg_no_qm e x h
    · rw [h]
      decide)]
  rw [splitSep_joinSep '&' _ (by simp) (by
    intro s hs
    simp only [List.mem_map] at hs
    obtain ⟨ent, _, hent⟩ := hs
    rw [← hent]
    exact formSeg_no_amp ent)]
  rw [List.filterMap_map]
  calc List.filterMap _ (e :: es) = (e :: es).filterMap some := by
        apply List.filterMap_congr
        intro ent _
        exact upEntries_formSeg ent
    _ = e :: es := List.filterMap_some _

theorem uriSeg_no_amp (ent : String × String) : '&' ∉ uriSeg ent := by
  intro hmem
  simp only [uriSeg, encodeURIComponent, List.mem_append, List.mem_cons] at hmem
  rcases hmem with h | h | h
  · exact (encodeChars_no_sep uriUnreserved false uriUnreserved_sep ent.1.data '&' h).1 rfl
  · exact absurd h.symm (by decide)
  · exact (encodeChars_no_sep uriUnreserved false uriUnreserved_sep ent.2.data '&' h).1 rfl

theorem uriSeg_no_qm (ent : String × String) : ∀ x ∈ uriSeg ent, x ≠ '?' := by
  intro x hmem
  simp only [uriSeg, encodeURIComponent, List.mem_append, List.mem_cons] at hmem
  rcases hmem with h | h | h
  · exact char_ne_of_toNat_ne
      (encodeChars_no_sep uriUnreserved false uriUnreserved_sep ent.1.data x h).2.2
  · rw [h]
    decide
  · exact char_ne_of_toNat_ne
      (encodeChars_no_sep uriUnreserved false uriUnreserved_sep ent.2.data x h).2.2

theorem upEntries_uriSeg (o : Option (String × String)) :
    (if (renderPiece o).isEmpty = true then none
      else some (String.mk (decodeChars (splitFirstEq (renderPiece o)).1),
        String.mk (decodeChars (splitFirstEq (renderPiece o)).2))) = o := by
  rcases o with _ | ent
  · rfl
  have hempty : (renderPiece (some ent)).isEmpty = false := by
    rcases hk : (encodeURIComponent ent.1).data with _ | ⟨y, ys⟩ <;>
      simp [renderPiece, uriSeg, hk]
  rw [hempty]
  simp only [Bool.false_eq_true, if_false]
  rw [show renderPiece (some ent) = (encodeURIComponent ent.1).data ++ '=' ::
      (encodeURIComponent ent.2).data from rfl]
  rw [show (encodeURIComponent ent.1).data = encodeChars uriUnreserved false ent.1.data from rfl,
    show (encodeURIComponent ent.2).data = encodeChars uriUnreserved false ent.2.data from rfl]
  rw [splitFirstEq_append _ _ (fun hmem =>
    (encodeChars_no_sep uriUnreserved false uriUnreserved_sep ent.1.data '=' hmem).2.1 rfl)]
  rw [decodeChars_encodeChars uriUnreserved false uriUnreserved_good,
    decodeChars_encodeChars uriUnreserved false uriUnreserved_good, mk_data, mk_data]

theorem upEntries_pieces (pieces : List (Option (String × String))) :
    upEntries (String.mk (joinSep '&' (pieces.map renderPiece))) =
      pieces.filterMap id := by
  rcases pieces with _ | ⟨p, ps⟩
  · rfl
  unfold upEntries
  rw [show (String.mk (joinSep '&' ((p :: ps).map renderPiece))).data =
      joinSep '&' ((p :: ps).map renderPiece) from rfl]
  rw [stripQM_of_head_ne _ (by
    intro x l hxl
    rw [List.map_cons] at hxl
    rcases joinSep_head_mem _ _ _ _ hxl with h | h
    · rcases p with _ | ent
      · simp [renderPiece] at h
      · exact uriSeg_no_qm ent x h
    · rw [h]
      decide)]
  rw [splitSep_joinSep '&' _ (by simp) (by
    intro s hs
    simp only [List.mem_map] at hs
    obtain ⟨o, _, ho⟩ := hs
    rw [← ho]
    rcases o with _ | ent
    · simp [renderPiece]
    · exact uriSeg_no_amp ent)]
  rw [List.filterMap_map]
  apply List.filterMap_congr
  intro o _
  exact upEntries_uriSeg o

theorem stringifySeg_eq (kv : String × Value) :
    stringifySeg kv = (pairsOptEnt kv).map (fun o => o.map uriSeg) := by
  rcases kv with ⟨k, v⟩
  rcases v with s | n | _ | items
  · rfl
  · rfl
  · rfl
  · simp only [stringifySeg, pairsOptEnt, List.map_map]
    apply List.map_congr_left
    intro it _
    rcases it with s | n | _ <;> rfl

/-- What the URLSearchParams parser recovers from a stringified object:
exactly the pairs of the non-null entries, in order. Null entries and
null array elements contribute no pair (though they do leave an empty
piece between ampersands, which the parser skips). -/
theorem upEntries_stringify (obj : StateObj) :
    upEntries (stringifyQueryString obj) = expandPairs obj := by
  have hpieces : (obj.flatMap stringifySeg).map (fun o => o.getD []) =
      (pairsOpt obj).map renderPiece := by
    rw [show obj.flatMap stringifySeg =
        obj.flatMap (fun kv => (pairsOptEnt kv).map (fun o => o.map uriSeg)) from by
      apply List.flatMap_congr
      intro kv _
      exact stringifySeg_eq kv]
    rw [show obj.flatMap (fun kv => (pairsOptEnt kv).map (fun o => o.map uriSeg)) =
        (pairsOpt obj).map (fun o => o.map uriSeg) from by
      simp [pairsOpt, List.map_flatMap]]
    rw [List.map_map]
    apply List.map_congr_left
    intro o _
    rcases o with _ | ent <;> rfl
  rw [show stringifyQueryString obj =
      String.mk (joinSep '&' ((pairsOpt obj).map renderPiece)) from by
    unfold stringifyQueryString
    rw [hpieces]]
  rw [upEntries_pieces]
  rfl

theorem mem_dedupKeys : ∀ (l : List String) (x : String), x ∈ dedupKeys l ↔ x ∈ l := by
  intro l
  induction l with
  | nil => intro x; rfl
  | cons k rest ih =>
    intro x
    simp only [dedupKeys, List.mem_cons, List.mem_filter, ih, bne_iff_ne]
    constructor
    · rintro (rfl | ⟨h, _⟩)
      · exact Or.inl rfl
      · exact Or.inr h
    · rintro (rfl | h)
      · exact Or.inl rfl
      · by_cases hx : x = k
        · exact Or.inl hx
        · exact Or.inr ⟨h, hx⟩

theorem nodup_dedupKeys : ∀ l : List String, (dedupKeys l).Nodup := by
  intro l
  induction l with
  | nil => exact List.nodup_nil
  | cons k rest ih =>
    simp only [dedupKeys, List.nodup_cons]
    refine ⟨fun hmem => ?_, List.Nodup.filter _ ih⟩
    simp only [List.mem_filter, bne_iff_ne] at hmem
    exact hmem.2 rfl

theorem lookupV_map_keys (F : String → Value) :
    ∀ (l : List String) (k : String),
      lookupV k (l.map (fun x => (x, F x))) = if k ∈ l then some (F k) else none := by
  intro l
  induction l with
  | nil => intro k; rfl
  | cons x rest ih =>
    intro k
    simp only [List.map_cons, lookupV, List.find?_cons]
    by_cases hx : x = k
    · subst hx
      simp [List.mem_cons]
    · rw [show ((x, F x).1 == k) = false from by
        simp only [beq_eq_false_iff_ne, ne_eq]
        exact hx]
      have h2 := ih k
      simp only [lookupV] at h2
      rw [h2]
      by_cases hk : k ∈ rest
      · rw [if_pos hk, if_pos (List.mem_cons_of_mem x hk)]
      · rw [if_neg hk, if_neg (by
          intro hmem
          rcases List.mem_cons.mp hmem with rfl | hh
          · exact hx rfl
          · exact hk hh)]

theorem valuesFor_append (k : String) (a b : List (String × String)) :
    valuesFor k (a ++ b) = valuesFor k a ++ valuesFor k b := by
  simp [valuesFor]

theorem valuesFor_eq_nil (k : String) (es : List (String × String))
    (h : ∀ e ∈ es, e.1 ≠ k) : valuesFor k es = [] := by
  induction es with
  | nil => rfl
  | cons e rest ih =>
    simp only [valuesFor, List.filterMap_cons]
    rw [if_neg (h e (by simp))]
    exact ih (fun x hx => h x (by simp [hx]))

theorem valuesFor_all_key (k : String) (es : List (String × String))
    (h : ∀ e ∈ es, e.1 = k) : valuesFor k es = es.map (fun e => e.2) := by
  induction es with
  | nil => rfl
  | cons e rest ih =>
    have he := h e (by simp)
    simp only [valuesFor, List.filterMap_cons, he, if_pos, List.map_cons]
    have h2 := ih (fun x hx => h x (by simp [hx]))
    simp only [valuesFor] at h2
    rw [h2]

theorem valuesFor_ne_nil_iff (k : String) (es : List (String × String)) :
    valuesFor k es ≠ [] ↔ k ∈ es.map (fun e => e.1) := by
  induction es with
  | nil => simp [valuesFor]
  | cons e rest ih =>
    simp only [valuesFor, List.filterMap_cons, List.map_cons, List.mem_cons]
    by_cases he : e.1 = k
    · rw [if_pos he]
      simp [he]
    · rw [if_neg he]
      simp only [valuesFor] at ih
      rw [ih]
      constructor
      · exact Or.inr
      · rintro (rfl | h)
        · exact absurd rfl he
        · exact h

theorem dedupKeys_filter_of_not_mem (k : String) :
    ∀ l : List String, k ∉ l → (dedupKeys l).filter (fun x => x != k) = dedupKeys l := by
  intro l hl
  apply List.filter_eq_self.mpr
  intro x hx
  rw [mem_dedupKeys] at hx
  simp only [bne_iff_ne, ne_eq, decide_eq_true_eq]
  intro he
  subst he
  exact hl hx

theorem dedupKeys_cons (k : String) (rest : List String) :
    dedupKeys (k :: rest) = k :: (dedupKeys rest).filter (fun x => x != k) := rfl

theorem dedupKeys_append_const (k : String) :
    ∀ (l1 l2 : List String), l1 ≠ [] → (∀ x ∈ l1, x = k) →
      dedupKeys (l1 ++ l2) = k :: (dedupKeys l2).filter (fun x => x != k) := by
  intro l1
  induction l1 with
  | nil => intro l2 h; exact absurd rfl h
  | cons a l1t ih =>
    intro l2 _ hall
    have ha : a = k := hall a (by simp)
    subst ha
    rcases l1t with _ | ⟨b, l1t2⟩
    · rfl
    · rw [List.cons_append, dedupKeys_cons,
        ih l2 (by simp) (fun x hx => hall x (by simp [hx]))]
      simp only [List.filter_cons]
      rw [show ((a : String) != a) = false from by simp]
      simp only [Bool.false_eq_true, if_false, List.filter_filter]
      congr 1
      apply List.filter_congr
      intro x _
      simp

theorem expandPairs_cons (kv : String × Value) (rest : StateObj) :
    expandPairs (kv :: rest) = (pairsOptEnt kv).filterMap id ++ expandPairs rest := by
  simp [expandPairs, pairsOpt]

theorem pairsOptEnt_key (kv : String × Value) :
    ∀ p ∈ (pairsOptEnt kv).filterMap id, p.1 = kv.1 := by
  intro p hp
  simp only [List.mem_filterMap, id_eq] at hp
  obtain ⟨o, ho, hoo⟩ := hp
  subst hoo
  rcases kv with ⟨k, v⟩
  rcases v with s | n | _ | items
  · simp only [pairsOptEnt, List.mem_singleton, Option.some.injEq] at ho
    rw [ho]
  · simp only [pairsOptEnt, List.mem_singleton, Option.some.injEq] at ho
    rw [ho]
  · simp only [pairsOptEnt, List.mem_singleton] at ho
    exact absurd ho (by simp)
  · simp only [pairsOptEnt, List.mem_map] at ho
    obtain ⟨it, _, hit⟩ := ho
    rcases it with s | n | _
    · simp only [Option.some.injEq] at hit
      rw [← hit]
    · simp only [Option.some.injEq] at hit
      rw [← hit]
    · simp at hit

theorem expandEnt_values (kv : String × Value) :
    ((pairsOptEnt kv).filterMap id).map (fun e => e.2) = expandVals kv.2 := by
  rcases kv with ⟨k, v⟩
  rcases v with s | n | _ | items
  · rfl
  · rfl
  · rfl
  · simp only [pairsOptEnt, expandVals, List.filterMap_map, List.map_filterMap]
    apply List.filterMap_congr
    intro it _
    rcases it with s | n | _ <;> rfl

theorem mem_expandPairs_key : ∀ (obj : StateObj) (p : String × String),
    p ∈ expandPairs obj → p.1 ∈ obj.map (fun e => e.1) := by
  intro obj
  induction obj with
  | nil => intro p hp; simp [expandPairs, pairsOpt] at hp
  | cons kv rest ih =>
    intro p hp
    rw [expandPairs_cons] at hp
    simp only [List.mem_append] at hp
    simp only [List.map_cons, List.mem_cons]
    rcases hp with h | h
    · exact Or.inl (pairsOptEnt_key kv p h)
    · exact Or.inr (ih p h)

theorem lookupV_cons_self (kv : String × Value) (rest : StateObj) :
    lookupV kv.1 (kv :: rest) = some kv.2 := by
  simp [lookupV, List.find?_cons]

theorem lookupV_cons_ne (k : String) (kv : String × Value) (rest : StateObj)
    (h : kv.1 ≠ k) : lookupV k (kv :: rest) = lookupV k rest := by
  simp only [lookupV, List.find?_cons]
  rw [show (kv.1 == k) = false from by simpa using h]

/-- getAll after stringify: with distinct keys, the values recovered for
a key are exactly the expansion of that key's value (and nothing for an
absent key). -/
theorem valuesFor_expandPairs (k : String) :
    ∀ obj : StateObj, (obj.map (fun e => e.1)).Nodup →
      valuesFor k (expandPairs obj) = expandVals ((lookupV k obj).getD .null) := by
  intro obj
  induction obj with
  | nil => intro _; rfl
  | cons kv rest ih =>
    intro hnd
    simp only [List.map_cons, List.nodup_cons] at hnd
    rw [expandPairs_cons, valuesFor_append]
    by_cases hk : kv.1 = k
    · subst hk
      rw [lookupV_cons_self]
      rw [valuesFor_all_key kv.1 _ (pairsOptEnt_key kv), expandEnt_values]
      rw [valuesFor_eq_nil kv.1 _ (fun p hp he => hnd.1 (by
        rw [← he]
        exact mem_expandPairs_key rest p hp))]
      simp
    · rw [lookupV_cons_ne k kv rest hk]
      rw [valuesFor_eq_nil k _ (fun p hp he => hk ((pairsOptEnt_key kv p hp).symm.trans he))]
      rw [ih hnd.2]
      simp

theorem lookupV_parseFromEntries (k : String) (es : List (String × String))
    (initialValue : StateObj) :
    lookupV k (parseFromEntries es initialValue) =
      if k ∈ es.map (fun e => e.1) then
        some (collapseKey initialValue k (valuesFor k es))
      else none := by
  unfold parseFromEntries
  rw [lookupV_map_keys]
  by_cases hk : k ∈ es.map (fun e => e.1)
  · rw [if_pos ((mem_dedupKeys _ k).mpr hk), if_pos hk]
  · rw [if_neg (fun hh => hk ((mem_dedupKeys _ k).mp hh)), if_neg hk]

/-- Expansion inverts the collapse for keys that are not numerically
coerced: the values written back are the values read. -/
theorem expandVals_collapseKey (initialValue : StateObj) (k : String) (vs : List String)
    (hne : vs ≠ [])
    (hnn : ∀ n, lookupV k initialValue ≠ some (.num n)) :
    expandVals (collapseKey initialValue k vs) = vs := by
  unfold collapseKey
  by_cases hlen : vs.length > 1
  · rw [if_pos hlen]
    simp only [expandVals, List.filterMap_map]
    refine (List.filterMap_congr ?_).trans (List.filterMap_some vs)
    intro s _
    rfl
  · rw [if_neg hlen]
    have hv : ∃ v, vs = [v] := by
      rcases vs with _ | ⟨v, _ | ⟨w, t⟩⟩
      · exact absurd rfl hne
      · exact ⟨v, rfl⟩
      · simp at hlen
    obtain ⟨v, rfl⟩ := hv
    rcases hl : lookupV k initialValue with _ | val
    · rfl
    · rcases val with s | n | _ | items
      · rfl
      · exact absurd hl (hnn n)
      · rfl
      · rfl

theorem lookupV_append (k : String) :
    ∀ l1 l2 : StateObj, lookupV k (l1 ++ l2) =
      match lookupV k l1 with
      | some v => some v
      | none => lookupV k l2 := by
  intro l1 l2
  induction l1 with
  | nil => rfl
  | cons e rest ih =>
    simp only [List.cons_append, lookupV, List.find?_cons]
    rcases hbe : (e.1 == k) with _ | _
    · simp only [lookupV] at ih
      rw [ih]
    · rfl

theorem lookupV_isSome_iff (k : String) (l : StateObj) :
    (lookupV k l).isSome = true ↔ k ∈ l.map (fun e => e.1) := by
  induction l with
  | nil => simp [lookupV]
  | cons e rest ih =>
    by_cases hek : e.1 = k
    · simp [lookupV, List.find?_cons, hek]
    · have hbe : (e.1 == k) = false := by simpa using hek
      simp only [lookupV, List.find?_cons, hbe, List.map_cons, List.mem_cons]
      simp only [lookupV] at ih
      rw [ih]
      constructor
      · exact Or.inr
      · rintro (rfl | h)
        · exact absurd rfl hek
        · exact h

theorem lookupV_map_assign (k : String) (b : StateObj) :
    ∀ a : StateObj,
      lookupV k (a.map (fun e => (e.1, (lookupV e.1 b).getD e.2))) =
        (lookupV k a).map (fun va => (lookupV k b).getD va) := by
  intro a
  induction a with
  | nil => rfl
  | cons e rest ih =>
    simp only [List.map_cons, lookupV, List.find?_cons]
    rcases hbe : (e.1 == k) with _ | _
    · simp only [lookupV] at ih
      rw [ih]
    · have hek : e.1 = k := beq_iff_eq.mp hbe
      rw [hek]
      rfl

theorem lookupV_filter_of_none (k : String) (a : StateObj) (ha : lookupV k a = none) :
    ∀ b : StateObj,
      lookupV k (b.filter (fun e => (lookupV e.1 a).isNone)) = lookupV k b := by
  intro b
  induction b with
  | nil => rfl
  | cons e rest ih =>
    simp only [List.filter_cons]
    rcases hbe : (e.1 == k) with _ | _
    · by_cases hcond : ((lookupV e.1 a).isNone : Bool) = true
      · rw [if_pos hcond]
        simp only [lookupV, List.find?_cons, hbe]
        simp only [lookupV] at ih
        rw [ih]
      · rw [if_neg hcond]
        rw [ih]
        simp only [lookupV, List.find?_cons, hbe]
    · have hek : e.1 = k := beq_iff_eq.mp hbe
      rw [if_pos (by rw [hek, ha]; rfl)]
      simp [lookupV, List.find?_cons, hbe]

theorem lookupV_filter_of_some (k : String) (a : StateObj) (va : Value)
    (ha : lookupV k a = some va) :
    ∀ b : StateObj,
      lookupV k (b.filter (fun e => (lookupV e.1 a).isNone)) = none := by
  intro b
  induction b with
  | nil => rfl
  | cons e rest ih =>
    simp only [List.filter_cons]
    by_cases hek : e.1 = k
    · rw [if_neg (by rw [hek, ha]; simp)]
      exact ih
    · by_cases hcond : ((lookupV e.1 a).isNone : Bool) = true
      · rw [if_pos hcond]
        simp only [lookupV, List.find?_cons]
        rw [show (e.1 == k) = false from by simpa using hek]
        simp only [lookupV] at ih
        exact ih
      · rw [if_neg hcond]
        exact ih

/-- The lookup law of Object.assign: the source object wins where it has
the key, the target value survives otherwise. -/
theorem lookupV_jsAssign (k : String) (a b : StateObj) :
    lookupV k (jsAssign a b) =
      match lookupV k a with
      | some va => some ((lookupV k b).getD va)
      | none => lookupV k b := by
  unfold jsAssign
  rw [lookupV_append, lookupV_map_assign]
  rcases hla : lookupV k a with _ | va
  · simp only [Option.map_none]
    exact lookupV_filter_of_none k a hla b
  · rfl

theorem nodup_keys_jsAssign (a b : StateObj)
    (ha : (a.map (fun e => e.1)).Nodup) (hb : (b.map (fun e => e.1)).Nodup) :
    ((jsAssign a b).map (fun e => e.1)).Nodup := by
  unfold jsAssign
  rw [List.map_append]
  apply List.Nodup.append
  · rw [List.map_map]
    exact ha
  · exact List.Nodup.sublist (List.Sublist.map _ (List.filter_sublist b)) hb
  · intro x hx1 hx2
    simp only [List.map_map, Function.comp] at hx1
    have hx1' : x ∈ a.map (fun e => e.1) := by
      simpa using hx1
    simp only [List.mem_map] at hx2
    obtain ⟨e, he, hex⟩ := hx2
    simp only [List.mem_filter] at he
    have hnone : lookupV e.1 a = none := by
      rcases hl : lookupV e.1 a with _ | v
      · rfl
      · rw [hl] at he
        simp at he
    rw [hex] at hnone
    have := (lookupV_isSome_iff x a).mpr hx1'
    rw [hnone] at this
    simp at this

theorem pairsOptEnt_arr_no_null (k : String) (items : List Scalar)
    (h : ∀ it ∈ items, it ≠ .null) :
    (pairsOptEnt (k, .arr items)).filterMap id =
      items.map (fun it => (k, scalarToString it)) := by
  simp only [pairsOptEnt, List.filterMap_map]
  rw [← List.map_id' (items.map (fun it => (k, scalarToString it)))]
  rw [List.map_map, ← List.filterMap_eq_map]
  apply List.filterMap_congr
  intro it hit
  rcases it with s | n | _
  · rfl
  · rfl
  · exact absurd rfl (h _ hit)

theorem collapse_single_scalar (initialValue : StateObj) (k : String) (v : Value)
    (hv : v ≠ .null ∧ ∀ items, v ≠ .arr items) :
    collapseKey initialValue k [valueToString v] = roundCoerce initialValue k v := by
  rcases v with s | n | _ | items
  · rfl
  · rfl
  · exact absurd rfl hv.1
  · exact absurd rfl (hv.2 items)

/-- Parsing the entries stringify emits reproduces the object up to the
schema-directed round-trip coercion. -/
theorem parseFromEntries_expandPairs (initialValue : StateObj) :
    ∀ obj : StateObj, (obj.map (fun e => e.1)).Nodup → (∀ kv ∈ obj, WFValue kv.2) →
      parseFromEntries (expandPairs obj) initialValue =
        obj.map (fun kv => (kv.1, roundCoerce initialValue kv.1 kv.2)) := by
  intro obj
  induction obj with
  | nil => intro _ _; rfl
  | cons kv rest ih =>
    obtain ⟨k0, v0⟩ := kv
    intro hnd hwf
    simp only [List.map_cons, List.nodup_cons] at hnd
    have hwfkv : WFValue v0 := hwf (k0, v0) (by simp)
    have hkeyE : ∀ p ∈ (pairsOptEnt (k0, v0)).filterMap id, p.1 = k0 :=
      pairsOptEnt_key (k0, v0)
    have hEne : (pairsOptEnt (k0, v0)).filterMap id ≠ [] := by
      rcases v0 with s | n | _ | items
      · simp [pairsOptEnt]
      · simp [pairsOptEnt]
      · exact hwfkv.elim
      · rw [pairsOptEnt_arr_no_null k0 items hwfkv.2]
        have h2 := hwfkv.1
        intro he
        rw [← List.length_eq_zero] at he
        simp only [List.length_map] at he
        omega
    have hknotrest : k0 ∉ (expandPairs rest).map (fun e => e.1) := by
      intro hmem
      simp only [List.mem_map] at hmem
      obtain ⟨p, hp, hpk⟩ := hmem
      exact hnd.1 (by
        rw [← hpk]
        exact mem_expandPairs_key rest p hp)
    rw [show expandPairs ((k0, v0) :: rest) =
        (pairsOptEnt (k0, v0)).filterMap id ++ expandPairs rest from
      expandPairs_cons (k0, v0) rest]
    unfold parseFromEntries
    rw [List.map_append]
    rw [dedupKeys_append_const k0 _ _ (by
        intro he
        apply hEne
        rw [← List.length_eq_zero] at he ⊢
        simpa using he)
      (by
        intro x hx
        simp only [List.mem_map] at hx
        obtain ⟨p, hp, hpx⟩ := hx
        rw [← hpx]
        exact hkeyE p hp)]
    rw [dedupKeys_filter_of_not_mem k0 _ hknotrest]
    rw [List.map_cons]
    congr 1
    · -- the head entry collapses to its round coercion
      rw [valuesFor_append, valuesFor_all_key k0 _ hkeyE,
        valuesFor_eq_nil k0 _ (fun p hp he => hknotrest (by
          rw [← he]
          exact List.mem_map_of_mem _ hp)), List.append_nil]
      rcases v0 with s | n | _ | items
      · rw [show ((pairsOptEnt (k0, Value.str s)).filterMap id).map (fun e => e.2) =
            [valueToString (Value.str s)] from rfl]
        rw [collapse_single_scalar initialValue k0 (.str s) ⟨by simp, by simp⟩]
      · rw [show ((pairsOptEnt (k0, Value.num n)).filterMap id).map (fun e => e.2) =
            [valueToString (Value.num n)] from rfl]
        rw [collapse_single_scalar initialValue k0 (.num n) ⟨by simp, by simp⟩]
      · exact hwfkv.elim
      · rw [pairsOptEnt_arr_no_null k0 items hwfkv.2]
        rw [List.map_map]
        unfold collapseKey
        rw [if_pos (by
          simp only [List.length_map]
          have h2 := hwfkv.1
          omega)]
        unfold roundCoerce
        rw [List.map_map]
        rfl
    · -- the tail entries are untouched by the head key
      have htail : ∀ k2 ∈ dedupKeys ((expandPairs rest).map (fun e => e.1)),
          valuesFor k2 ((pairsOptEnt (k0, v0)).filterMap id ++ expandPairs rest) =
            valuesFor k2 (expandPairs rest) := by
        intro k2 hk2
        rw [mem_dedupKeys] at hk2
        have hk2ne : k2 ≠ k0 := by
          intro he
          rw [he] at hk2
          exact hknotrest hk2
        rw [valuesFor_append, valuesFor_eq_nil k2 _ (fun p hp he =>
          hk2ne ((hkeyE p hp).symm.trans he).symm), List.nil_append]
      rw [List.map_congr_left (fun k2 hk2 => by rw [htail k2 hk2])]
      exact ih hnd.2 (fun e he => hwf e (by simp [he]))

/-- Round trip through the default codec: parse after stringify, against
any schema, reproduces a well-formed object up to the schema-directed
round-trip coercion. -/
theorem parse_stringify_roundtrip (initialValue : StateObj) (obj : StateObj)
    (hnd : (obj.map (fun e => e.1)).Nodup) (hwf : ∀ kv ∈ obj, WFValue kv.2) :
    parseQueryString (stringifyQueryString obj) initialValue =
      obj.map (fun kv => (kv.1, roundCoerce initialValue kv.1 kv.2)) := by
  unfold parseQueryString
  rw [upEntries_stringify]
  exact parseFromEntries_expandPairs initialValue obj hnd hwf

theorem expandVals_scalar (v : Value) (h : ScalarNN v) :
    expandVals v = [valueToString v] := by
  rcases v with s | n | _ | items
  · rfl
  · rfl
  · exact h.elim
  · exact h.elim

theorem keys_parseFromEntries (es : List (String × String)) (initialValue : StateObj) :
    (parseFromEntries es initialValue).map (fun e => e.1) =
      dedupKeys (es.map (fun e => e.1)) := by
  unfold parseFromEntries
  rw [List.map_map]
  exact List.map_id' _

theorem valuesFor_eq_nil_of_not_mem (k : String) (es : List (String × String))
    (h : k ∉ es.map (fun e => e.1)) : valuesFor k es = [] := by
  rcases hv : valuesFor k es with _ | ⟨v, vs⟩
  · rfl
  · exact absurd ((valuesFor_ne_nil_iff k es).mp (by rw [hv]; simp)) h

/-- C1. The hook's third result is useCallback of a function that merely
returns a closure over setState(RESET): invoking the returned action once
performs no state change, while the claim requires it to restore the
defaults; the behaviour the claim describes is only obtained by calling
setState with the RESET sentinel (or by applying the action twice). At
defaults page=1, after setState to page=2, one reset invocation leaves
page=2 instead of page=1. -/
theorem c1_reset_invocation_is_inert :
    (runEvents [("page", Value.num 1)] ⟨true, false⟩ [("page", Value.num 1)]
      [(.noWindow, .setSt (.replace [("page", Value.num 2)])), (.noWindow, .resetCall)]).1 =
      [("page", Value.num 2)] ∧
    [("page", Value.num 2)] ≠ ([("page", Value.num 1)] : StateObj) ∧
    (runEvents [("page", Value.num 1)] ⟨true, false⟩ [("page", Value.num 1)]
      [(.noWindow, .setSt (.replace [("page", Value.num 2)])), (.noWindow, .setSt .reset)]).1 =
      [("page", Value.num 1)] ∧
    (reset [("page", Value.num 1)] ⟨true, false⟩ [("page", Value.num 2)] .noWindow () ()).1 =
      [("page", Value.num 1)] := by
  exact ⟨by decide, by decide, by decide, by decide⟩

/-- C2, counterexample. With isSyncPathname explicitly disabled and a
window with a valid URL, setState still performs a history write: the
source's URL-write branch tests only the environment, never the sync
flag. The claim says no URL write happens when sync mode is disabled. -/
theorem c2_counterexample :
    (setStateCore [("page", Value.num 1)] ⟨false, false⟩ [("page", Value.num 1)]
      (.window "https://ex.com/p?x=1" true) (.replace [("page", Value.num 2)])).2.pushes =
      ["/p?x=1&page=2"] ∧ (["/p?x=1&page=2"] : List String) ≠ [] := by
  exact ⟨by decide, by decide⟩

/-- C2, amended. The URL-write step of setState (read current mapping,
overlay, stringify, write through history or the delegate) is performed
exactly when the environment exposes a window with a valid current URL,
regardless of isSyncPathname; when the environment is absent or the href
is invalid, no write of either kind occurs. -/
theorem c2_write_iff_valid_url (initialValue : StateObj) (opts : HookOpts) (cur : StateObj)
    (env : Env) (p : Payload) :
    ((setStateCore initialValue opts cur env p).2.pushes ≠ [] ∨
      (setStateCore initialValue opts cur env p).2.delegated ≠ []) ↔
      envHasValidHref env = true := by
  rcases env with _ | ⟨href, L⟩
  · simp [setStateCore, envHasValidHref]
  · rcases hu : parseURL href with _ | url
    · simp [setStateCore, envHasValidHref, hu]
    · rcases hd : opts.hasPathnameDelegate with _ | _ <;>
        simp [setStateCore, envHasValidHref, hu, hd]

/-- C3, counterexample. A singleton array survives stringify as a single
name=value pair, so re-parsing returns a scalar string, not the array:
the state tags=[a] round-trips to tags=a, which is not a numeric/string
coercion of the original value. -/
theorem c3_counterexample :
    parseQueryString (stringifyQueryString [("tags", Value.arr [Scalar.str "a"])])
      [("tags", Value.arr [Scalar.str "a", Scalar.str "b"])] =
      [("tags", Value.str "a")] ∧
    Value.str "a" ≠ Value.arr [Scalar.str "a"] := by
  exact ⟨by decide, by decide⟩

/-- C3, amended. For a state object with pairwise distinct keys whose
values are non-null scalars or arrays of at least two non-null scalars,
parsing the stringified state against the schema reproduces the state up
to the schema-directed round-trip coercion: array elements become their
string forms, and a scalar becomes its string form, re-coerced to a
number by toNumberable exactly when the schema default for its key is
numeric. -/
theorem c3_roundtrip (initialValue obj : StateObj)
    (hnd : (obj.map (fun e => e.1)).Nodup) (hwf : ∀ kv ∈ obj, WFValue kv.2) :
    parseQueryString (stringifyQueryString obj) initialValue =
      obj.map (fun kv => (kv.1, roundCoerce initialValue kv.1 kv.2)) :=
  parse_stringify_roundtrip initialValue obj hnd hwf

/-- C3, witness for the amended round trip at a concrete schema and
state: a numeric-default key, a string key, and a two-element array. -/
theorem c3_roundtrip_witness :
    parseQueryString
      (stringifyQueryString
        [("page", Value.num 5), ("q", Value.str "hello"),
         ("tags", Value.arr [Scalar.num 1, Scalar.num 2])])
      [("page", Value.num 1), ("q", Value.str ""), ("tags", Value.arr [Scalar.str "x"])] =
      [("page", Value.num 5), ("q", Value.str "hello"),
       ("tags", Value.arr [Scalar.str "1", Scalar.str "2"])] := by
  exact (c3_roundtrip
    [("page", Value.num 1), ("q", Value.str ""), ("tags", Value.arr [Scalar.str "x"])]
    [("page", Value.num 5), ("q", Value.str "hello"),
     ("tags", Value.arr [Scalar.num 1, Scalar.num 2])]
    (by decide) (by decide)).trans (by decide)

/-- C4. The claim (schema closure of initialization) is broken by the
source: the filtering loop deletes from url.searchParams while iterating
its live, index-based iterator, so the entry after each deleted one is
skipped. At defaults with single key page and query a=1&b=2, key a is
deleted, the iterator skips b, and Object.assign adds b to the state:
the key set becomes page, b instead of exactly page. -/
theorem c4_delete_during_iteration_leaks_foreign_key :
    getInitialStateWithQueryString [("page", Value.num 1)]
      (.window "https://ex.com/?a=1&b=2" true) =
      [("page", Value.num 1), ("b", Value.str "2")] := by
  decide

/-- C5. Numeric coercion is schema-directed: the same query page=5 parses
to the number 5 against a numeric default and to the string 5 against a
string default. -/
theorem c5_schema_directed_coercion :
    parseQueryString "page=5" [("page", Value.num 1)] = [("page", Value.num 5)] ∧
    parseQueryString "page=5" [("page", Value.str "1")] = [("page", Value.str "5")] := by
  exact ⟨by decide, by decide⟩

/-- C6, counterexample. A null entry is omitted as a pair but its
flatMap slot becomes undefined, which join renders as an empty piece, so
it does contribute a separator: stringifying a=null, b=x yields the
string ampersand-b=x, not b=x as the claim (output solely of
ampersand-joined pairs of the non-null entries) requires. -/
theorem c6_counterexample :
    stringifyQueryString [("a", Value.null), ("b", Value.str "x")] = "&b=x" ∧
    ("&b=x" : String) ≠ "b=x" ∧
    stringifyQueryString [("a", Value.arr [Scalar.str "x", Scalar.null, Scalar.str "y"])] =
      "a=x&&a=y" := by
  exact ⟨by decide, by decide, by decide⟩

/-- C6, amended. Null and undefined values (scalar entries and array
elements alike) contribute no name=value pair — the pairs recoverable
from the stringified output are exactly the expansion of the non-null
entries, in order — but each omitted value leaves an empty piece between
ampersands rather than disappearing without a separator. -/
theorem c6_nonnull_pairs (obj : StateObj) :
    upEntries (stringifyQueryString obj) = expandPairs obj :=
  upEntries_stringify obj

/-- C7. No exception escapes the core: setState (whose only fallible
platform call, the second new URL, sits behind the isValidUrl guard) and
initialization (whose body is wrapped in a catch substituting the
defaults) always return a value for every environment, state and payload;
parse accepts a malformed percent token as a literal string; stringify
totalizes by percent-encoding every separator. -/
theorem c7_no_exception_escapes :
    (∀ (initialValue : StateObj) (opts : HookOpts) (cur : StateObj) (env : Env) (p : Payload),
      exceptOk (setStateE initialValue opts cur env p) = true) ∧
    (∀ (initialValue : StateObj) (env : Env),
      exceptOk (getInitialStateE initialValue env) = true) ∧
    parseQueryString "a=%G1" [] = [("a", Value.str "%G1")] ∧
    stringifyQueryString [("k", Value.str "a b&c=d")] = "k=a%20b%26c%3Dd" := by
  refine ⟨?_, ?_, by decide, by decide⟩
  · intro initialValue opts cur env p
    rcases env with _ | ⟨href, L⟩
    · rfl
    · unfold setStateE
      simp only []
      by_cases hv : isValidUrl href = true
      · rw [if_pos hv]
        rcases hu : jsNewURL href with e | u
        · rw [isValidUrl, hu] at hv
          simp at hv
        · rcases hd : opts.hasPathnameDelegate with _ | _ <;> simp [hd, exceptOk]
      · rw [if_neg hv]
        rfl
  · intro initialValue env
    rcases env with _ | ⟨href, L⟩
    · rfl
    · unfold getInitialStateE
      simp only []
      rcases hb : getInitialStateBody initialValue href with e | st <;> rfl

/-- C8. A popstate step in sync mode replaces the state with the
init-logic recomputation from the navigated-to URL and issues no write of
its own: after a setState step and a popstate step, the final state is
the recomputation at the second environment, and the accumulated history
pushes and delegate calls are exactly those of the setState step. -/
theorem c8_popstate_resync_no_write (initialValue s0 : StateObj) (d : Bool) (p : Payload)
    (env1 : Env) (h2 : String) :
    (runEvents initialValue ⟨true, d⟩ s0
        [(env1, .setSt p), (.window h2 true, .popSt)]).1 =
      getInitialStateWithQueryString initialValue (.window h2 true) ∧
    (runEvents initialValue ⟨true, d⟩ s0
        [(env1, .setSt p), (.window h2 true, .popSt)]).2.pushes =
      (setStateCore initialValue ⟨true, d⟩ s0 env1 p).2.pushes ∧
    (runEvents initialValue ⟨true, d⟩ s0
        [(env1, .setSt p), (.window h2 true, .popSt)]).2.delegated =
      (setStateCore initialValue ⟨true, d⟩ s0 env1 p).2.delegated := by
  refine ⟨?_, ?_, ?_⟩ <;>
    simp [runEvents, stepEv, handlePopState, Effects.app]

/-- Extracting the witnessing entry of a successful lookup. -/
theorem lookupV_eq_some_mem (k : String) (l : StateObj) (v : Value)
    (h : lookupV k l = some v) : ∃ e ∈ l, e.1 = k ∧ e.2 = v := by
  simp only [lookupV] at h
  rcases hfe : l.find? (fun e => e.1 == k) with _ | e
  · rw [hfe] at h
    simp at h
  · rw [hfe] at h
    simp only [Option.map_some', Option.some.injEq] at h
    exact ⟨e, List.mem_of_find?_eq_some hfe,
      beq_iff_eq.mp (by simpa using List.find?_some hfe), h⟩

/-- C9. When setState replaces the full state while the URL holds foreign
keys, exactly one URL is written: the pathname with the query obtained by
overlaying the payload onto the parsed current mapping; and the pairs
recoverable from that query give, for every key, the new state's rendered
value where the new state has the key (one pair per scalar value) and the
existing URL's values where it does not — foreign keys survive with their
values. The payload has distinct keys and non-null scalar values, and
covers every key with a numeric schema default (as a full replacement
state does). -/
theorem c9_full_replacement_preserves_foreign (initialValue pl cur : StateObj)
    (sync d L : Bool) (href : String) (url : URLRec)
    (hurl : parseURL href = some url)
    (hnd : (pl.map (fun e => e.1)).Nodup)
    (hsc : ∀ kv ∈ pl, ScalarNN kv.2)
    (hcov : ∀ kv ∈ initialValue, NumCovered pl kv) :
    ((setStateCore initialValue ⟨sync, d⟩ cur (.window href L) (.replace pl)).2.pushes ++
      (setStateCore initialValue ⟨sync, d⟩ cur (.window href L) (.replace pl)).2.delegated =
      [url.pathname ++ "?" ++ stringifyQueryString (jsAssign
        (parseQueryString (serializeForm (upEntries url.search)) initialValue) pl)]) ∧
    ∀ k, valuesFor k (upEntries (stringifyQueryString (jsAssign
        (parseQueryString (serializeForm (upEntries url.search)) initialValue) pl))) =
      match lookupV k pl with
      | some v => [valueToString v]
      | none => valuesFor k (upEntries url.search) := by
  have hparsed : parseQueryString (serializeForm (upEntries url.search)) initialValue =
      parseFromEntries (upEntries url.search) initialValue := by
    unfold parseQueryString
    rw [upEntries_serializeForm]
  constructor
  · unfold setStateCore
    simp only [resolvePayload, hurl]
    rcases hd : d with _ | _ <;> simp [hd]
  · intro k
    rw [upEntries_stringify]
    rw [valuesFor_expandPairs k _ (by
      rw [hparsed]
      exact nodup_keys_jsAssign _ pl (by
          rw [keys_parseFromEntries]
          exact nodup_dedupKeys _) hnd)]
    rw [hparsed]
    rw [lookupV_jsAssign]
    rcases hpl : lookupV k pl with _ | v
    · -- the payload does not have the key: the URL value survives
      rw [lookupV_parseFromEntries]
      by_cases hmem : k ∈ (upEntries url.search).map (fun e => e.1)
      · rw [if_pos hmem]
        simp only [Option.getD]
        exact expandVals_collapseKey initialValue k _
          ((valuesFor_ne_nil_iff k _).mpr hmem)
          (fun n hn => by
            obtain ⟨e, he, hek, hev⟩ := lookupV_eq_some_mem k initialValue (.num n) hn
            have hc := hcov e he
            obtain ⟨ke, ve⟩ := e
            simp only at hek hev
            subst hev
            simp only [NumCovered] at hc
            rw [hek, hpl] at hc
            simp at hc)
      · rw [if_neg hmem]
        rw [valuesFor_eq_nil_of_not_mem k _ hmem]
        rfl
    · -- the payload has the key: its value wins, one pair
      have hv : ScalarNN v := by
        obtain ⟨e, he, _, hev⟩ := lookupV_eq_some_mem k pl v hpl
        rw [← hev]
        exact hsc e he
      rcases hla : lookupV k (parseFromEntries (upEntries url.search) initialValue) with _ | va
      · simp only [Option.getD]
        exact expandVals_scalar v hv
      · simp only [Option.getD]
        exact expandVals_scalar v hv

/-- C9, witness: the spec's concrete scenario. Defaults page=1, q empty;
the current URL carries page=2 and the foreign ref=abc; replacing the
state with page=3, q=hello writes a query from which ref is still
recovered as abc. -/
theorem c9_witness :
    valuesFor "ref" (upEntries (stringifyQueryString (jsAssign
      (parseQueryString (serializeForm (upEntries "page=2&ref=abc"))
        [("page", Value.num 1), ("q", Value.str "")])
      [("page", Value.num 3), ("q", Value.str "hello")]))) = ["abc"] := by
  have h := (c9_full_replacement_preserves_foreign
    [("page", Value.num 1), ("q", Value.str "")]
    [("page", Value.num 3), ("q", Value.str "hello")]
    [("page", Value.num 1), ("q", Value.str "")]
    true false true "https://ex.com/items?page=2&ref=abc" ⟨"/items", "page=2&ref=abc"⟩
    (by decide) (by decide) (by decide) (by decide)).2 "ref"
  exact h.trans (by decide)

/-- C10. A key occurring more than once in the query is returned as the
array of its raw decoded occurrences with no numeric coercion even under
a numeric schema default; the toNumberable coercion is attempted only
when the key occurs exactly once. -/
theorem c10_multi_value_uncoerced (initialValue : StateObj) (k : String) :
    (∀ s : String, 2 ≤ (valuesFor k (upEntries s)).length →
      lookupV k (parseQueryString s initialValue) =
        some (Value.arr ((valuesFor k (upEntries s)).map Scalar.str))) ∧
    (∀ s : String, (valuesFor k (upEntries s)).length = 1 →
      lookupV k (parseQueryString s initialValue) =
        some (match lookupV k initialValue with
          | some (Value.num _) =>
            toNumberable (.str ((valuesFor k (upEntries s)).headD ""))
          | _ => Value.str ((valuesFor k (upEntries s)).headD ""))) := by
  constructor
  · intro s hlen
    unfold parseQueryString
    rw [lookupV_parseFromEntries, if_pos ((valuesFor_ne_nil_iff k _).mp (by
      intro he
      rw [he] at hlen
      simp at hlen))]
    unfold collapseKey
    rw [if_pos (by omega)]
  · intro s hlen
    unfold parseQueryString
    rw [lookupV_parseFromEntries, if_pos ((valuesFor_ne_nil_iff k _).mp (by
      intro he
      rw [he] at hlen
      simp at hlen))]
    unfold collapseKey
    rw [if_neg (by omega)]

/-- C10, witness: tags occurs twice against a numeric default and stays
an array of raw strings. -/
theorem c10_witness :
    lookupV "tags" (parseQueryString "tags=1&tags=2" [("tags", Value.num 0)]) =
      some (Value.arr [Scalar.str "1", Scalar.str "2"]) := by
  exact ((c10_multi_value_uncoerced [("tags", Value.num 0)] "tags").1
    "tags=1&tags=2" (by decide)).trans (by decide)

end QStr

